import Mathlib

/-!
Shallow embedding of `smokesignal.py`, a single-module publish/subscribe
signal registry.

Modelling conventions, matching the source file:

* Signal identifiers and callback objects are identified by `Nat` ids.
* The module-global `_receivers = defaultdict(set)` becomes a `State`
  holding the key list `keys` (insertion order) and the receiver map
  `recv` with default value `[]` (Python's default empty set).  Lists
  stand for Python sets: insertion is membership-checked, and structural
  equality of `Wrapper` values stands for the object identity that
  governs set membership of function objects (each wrapper carries a
  fresh `wid`).
* The mutable attribute `callback._max_calls` written by `_on` is the map
  `maxCalls`; `none` models Python `None` (no limit).  The attribute is
  only ever read through wrappers, and every wrapper's callback has been
  through `_on` (which sets the attribute before creating the wrapper),
  so a genuinely missing attribute is never observable.
* Each `_on` call allocates a fresh wrapper object; `functools.wraps`
  (Python >= 3.2) and the explicit compatibility branch for older
  versions both set `wrapper.__wrapped__ = callback`, so a wrapper always
  carries the id of its wrapped callback.
* Callbacks are external code: an actual execution of a callback body
  either returns normally or raises, modelled by a function
  `raises : Nat -> Option Nat` giving the exception (if any) that the
  callback's body raises when it really executes.
* An `AssertionError` escaping a registration is `Except.error`, carrying
  the message and the global state at the moment the assertion fired.
-/

/-- Pointwise update of a total map, modelling assignment to one dict
entry or one object attribute. -/
def updf {α : Type} (f : Nat → α) (k : Nat) (v : α) : Nat → α :=
  fun x => if x = k then v else f x

/-- A wrapper object created by one `_on` call: `wid` is its object
identity, `wrapped` the id of the callback it delegates to (the value of
its `__wrapped__` attribute). -/
structure Wrapper where
  wid : Nat
  wrapped : Nat
deriving DecidableEq

/-- The module-global mutable state of `smokesignal.py`. -/
structure State where
  keys : List Nat
  recv : Nat → List Wrapper
  maxCalls : Nat → Option Int
  nextWid : Nat

/-- The state at import time: `_receivers = defaultdict(set)` is empty. -/
def initState : State :=
  { keys := [], recv := fun _ => [], maxCalls := fun _ => none, nextWid := 0 }

/-- The `signals` argument of the public api: a single signal or a
list/tuple of signals. -/
inductive SigArg where
  | one (s : Nat)
  | many (l : List Nat)
deriving DecidableEq

/-- `if not isinstance(signals, (list, tuple)): signals = [signals]`. -/
def SigArg.toList : SigArg → List Nat
  | .one s => [s]
  | .many l => l

/-- A value passed in the callback position of `on`/`once`/`_on`: a
callable object, an `int`, `None`, or any other (non-invocable, non-int)
value. -/
inductive CbArg where
  | callable (c : Nat)
  | intVal (k : Int)
  | noneVal
  | notCallable
deriving DecidableEq

/-- A value passed in the callback position of the query/removal api:
either an original callback object or a wrapper object previously
returned by a registration. -/
inductive CbRef where
  | orig (c : Nat)
  | wrap (w : Wrapper)
deriving DecidableEq

/-- What `on` returns: a wrapper (function-call form), or the
`functools`-closure `(_on, signals, max_calls)` that still awaits the
callback (decorator form). -/
inductive OnResult where
  | wrapper (w : Wrapper)
  | registrar (sigs : SigArg) (mc : Option Int)
deriving DecidableEq

/-- Evaluating `_receivers[signal]` on the defaultdict: inserts the key
with a default empty set when it is absent. -/
def accessKey (st : State) (s : Nat) : State :=
  if s ∈ st.keys then st else { st with keys := st.keys ++ [s] }

/-- `_receivers[signal].add(wrapper)`: a defaultdict key access followed
by set insertion. -/
def addWrapper (st : State) (s : Nat) (w : Wrapper) : State :=
  let st1 := accessKey st s
  if w ∈ st1.recv s then st1
  else { st1 with recv := updf st1.recv s (st1.recv s ++ [w]) }

/-- The body of `_on` once the `callable` assertion has succeeded, for a
callback object `c`: normalises `signals` to a list, stores `max_calls`
into the `_max_calls` attribute of the callback object itself, creates
one fresh wrapper (whose `__wrapped__` is `c`), adds that same wrapper to
the receiver set of every signal in the list, and returns the wrapper. -/
def onCore (st : State) (sigs : SigArg) (c : Nat) (mc : Option Int) :
    State × Wrapper :=
  let st1 : State := { st with maxCalls := updf st.maxCalls c mc }
  let w : Wrapper := ⟨st1.nextWid, c⟩
  let st2 : State := { st1 with nextWid := st1.nextWid + 1 }
  (sigs.toList.foldl (fun acc s => addWrapper acc s w) st2, w)

/-- `_on(signals, callback, max_calls=None)`.  Its first statement is
`assert callable(callback), 'Signal callbacks must be callable'`; the
assertion fires before any mutation, so the error carries the caller's
state unchanged. -/
def _on (st : State) (sigs : SigArg) (cb : CbArg) (mc : Option Int) :
    Except (String × State) (State × Wrapper) :=
  match cb with
  | .callable c => .ok (onCore st sigs c mc)
  | _ => .error ("Signal callbacks must be callable", st)

/-- `on(signals, callback=None, max_calls=None)`: when `callback` is an
`int`, the arguments were passed positionally, so the int becomes
`max_calls` and a decorator registrar is returned; when `callback` is
`None`, a registrar with the supplied `max_calls` is returned; otherwise
the call is forwarded to `_on`.  (Named `on'` because `on` is a reserved
notation token in Mathlib.) -/
def on' (st : State) (sigs : SigArg) (cb : CbArg) (mc : Option Int) :
    Except (String × State) (State × OnResult) :=
  match cb with
  | .intVal k => .ok (st, .registrar sigs (some k))
  | .noneVal => .ok (st, .registrar sigs mc)
  | _ =>
    match _on st sigs cb mc with
    | .ok (st', w) => .ok (st', .wrapper w)
    | .error err => .error err

/-- `once(signals, callback=None)` is `on(signals, callback, max_calls=1)`. -/
def once (st : State) (sigs : SigArg) (cb : CbArg) :
    Except (String × State) (State × OnResult) :=
  on' st sigs cb (some 1)

/-- One invocation of a wrapper: it reads the shared `_max_calls`
attribute of its wrapped callback, and when that is `None` or positive it
decrements the positive counter and executes the callback body; otherwise
it silently does nothing.  Returns the new state, whether the body
executed, and the exception the body raised (if any). -/
def runWrapper (st : State) (w : Wrapper) (raises : Nat → Option Nat) :
    State × Bool × Option Nat :=
  match st.maxCalls w.wrapped with
  | none => (st, true, raises w.wrapped)
  | some m =>
    if 0 < m then
      ({ st with maxCalls := updf st.maxCalls w.wrapped (some (m - 1)) },
        true, raises w.wrapped)
    else (st, false, none)

/-- The observable outcome of one `emit` call: the final state, the trace
of wrapper invocations (wrapper id, arguments), the trace of real
executions of underlying callback bodies (callback id, arguments), and
the exception that escaped, if any. -/
structure EmitResult (α : Type) where
  st : State
  wtrace : List (Nat × α)
  ctrace : List (Nat × α)
  exn : Option Nat

/-- The loop `for callback in _receivers[signal]: callback(*args, **kwargs)`
over a fixed iteration order of the set: each wrapper is invoked in turn
with the emit arguments; an exception raised by a callback body aborts
the loop and propagates. -/
def emitList {α : Type} (st : State) (ws : List Wrapper) (args : α)
    (raises : Nat → Option Nat) : EmitResult α :=
  match ws with
  | [] => ⟨st, [], [], none⟩
  | w :: rest =>
    match runWrapper st w raises with
    | (st', ex, some e) =>
      ⟨st', [(w.wid, args)], if ex then [(w.wrapped, args)] else [], some e⟩
    | (st', ex, none) =>
      let res := emitList st' rest args raises
      ⟨res.st, (w.wid, args) :: res.wtrace,
        (if ex then [(w.wrapped, args)] else []) ++ res.ctrace, res.exn⟩

/-- `emit(signal, *args, **kwargs)`: a defaultdict access
`_receivers[signal]` (which inserts the key when absent) followed by the
invocation loop over the registered wrappers. -/
def emit {α : Type} (st : State) (s : Nat) (args : α)
    (raises : Nat → Option Nat) : EmitResult α :=
  let st1 := accessKey st s
  emitList st1 (st1.recv s) args raises

/-- The membership test `callback in (fn, getattr(fn, '__wrapped__', None))`
for a stored wrapper `fn`: an original callback can only match through
`fn.__wrapped__` (it is never the wrapper object itself), while a wrapper
argument can only match the wrapper object. -/
def respondsMatch (t : CbRef) (fn : Wrapper) : Bool :=
  match t with
  | .orig c => fn.wrapped == c
  | .wrap w => fn == w

/-- `responds_to(callback, signal)`: iterates `_receivers[signal]` (a
defaultdict access, so the key is inserted when absent) looking for a
match of the callback against each stored wrapper. -/
def responds_to (st : State) (t : CbRef) (s : Nat) : State × Bool :=
  let st1 := accessKey st s
  (st1, (st1.recv s).any (respondsMatch t))

/-- `signals(callback)`:
`tuple(s for s in _receivers if responds_to(callback, s))`.  Every `s`
drawn from the key iteration is already present as a key, so the
defaultdict access inside `responds_to` inserts nothing and the global
state is unchanged; only the boolean result matters. -/
def signals (st : State) (t : CbRef) : List Nat :=
  st.keys.filter fun s => (responds_to st t s).2

/-- The removal test of `disconnect_from`: `check == callback` matches a
wrapper object passed back in directly, and
`callback == getattr(check, '__wrapped__', None)` matches every stored
wrapper of an original callback; either branch removes the stored
wrapper. -/
def removeMatch (t : CbRef) (check : Wrapper) : Bool :=
  match t with
  | .orig c => check.wrapped == c
  | .wrap w => check == w

/-- `disconnect_from(callback, signals)`: normalises `signals` to a list,
then for each signal (a defaultdict access, key inserted when absent)
removes from the receiver set every stored wrapper matching the
callback. -/
def disconnect_from (st : State) (t : CbRef) (sigs : SigArg) : State :=
  sigs.toList.foldl
    (fun acc s =>
      let acc1 := accessKey acc s
      { acc1 with
        recv := updf acc1.recv s
          ((acc1.recv s).filter fun check => !(removeMatch t check)) })
    st

/-- `disconnect(callback)` is
`disconnect_from(callback, signals(callback))`; the tuple returned by
`signals` is a tuple, so `disconnect_from` does not re-wrap it. -/
def disconnect (st : State) (t : CbRef) : State :=
  disconnect_from st t (.many (signals st t))

/-- `clear(*signals)`: `_receivers[signal].clear()` for each given signal
(a defaultdict access, so the key is inserted when absent, then its set
is emptied in place). -/
def clear (st : State) (sigs : List Nat) : State :=
  sigs.foldl
    (fun acc s =>
      let acc1 := accessKey acc s
      { acc1 with recv := updf acc1.recv s [] })
    st

/-- `clear_all()`: empties the set of every key currently in the
registry. -/
def clear_all (st : State) : State :=
  st.keys.foldl (fun acc s => { acc with recv := updf acc.recv s [] }) st

/-- A sequence of `emit` calls, one per signal in the list, all with the
same arguments; returns the final state together with the per-emit traces
of real callback-body executions. -/
def iterEmits {α : Type} (st : State) (sigs : List Nat) (args : α)
    (raises : Nat → Option Nat) : State × List (List (Nat × α)) :=
  match sigs with
  | [] => (st, [])
  | s :: rest =>
    let r := emit st s args raises
    let q := iterEmits r.st rest args raises
    (q.1, r.ctrace :: q.2)

/-- Number of entries of a trace that belong to callback `c`. -/
def cCount {α : Type} (c : Nat) (tr : List (Nat × α)) : Nat :=
  tr.countP fun p => p.1 == c

/-! ### Basic state-preservation lemmas -/

theorem accessKey_recv (st : State) (s : Nat) : (accessKey st s).recv = st.recv := by
  unfold accessKey; split <;> rfl

theorem accessKey_maxCalls (st : State) (s : Nat) :
    (accessKey st s).maxCalls = st.maxCalls := by
  unfold accessKey; split <;> rfl

theorem accessKey_mem (st : State) (s : Nat) : s ∈ (accessKey st s).keys := by
  unfold accessKey; split
  · assumption
  · simp

theorem accessKey_keys (st : State) (s : Nat) :
    (accessKey st s).keys = if s ∈ st.keys then st.keys else st.keys ++ [s] := by
  unfold accessKey; split <;> simp_all

theorem accessKey_of_mem (st : State) (s : Nat) (h : s ∈ st.keys) :
    accessKey st s = st := by
  unfold accessKey; simp [h]

theorem runWrapper_of_none (st : State) (w : Wrapper) (raises : Nat → Option Nat)
    (hm : st.maxCalls w.wrapped = none) :
    runWrapper st w raises = (st, true, raises w.wrapped) := by
  unfold runWrapper
  rw [hm]

theorem runWrapper_of_some (st : State) (w : Wrapper) (raises : Nat → Option Nat)
    (m : Int) (hm : st.maxCalls w.wrapped = some m) :
    runWrapper st w raises =
      if 0 < m then
        ({ st with maxCalls := updf st.maxCalls w.wrapped (some (m - 1)) },
          true, raises w.wrapped)
      else (st, false, none) := by
  unfold runWrapper
  rw [hm]

theorem runWrapper_recv (st : State) (w : Wrapper) (raises : Nat → Option Nat) :
    (runWrapper st w raises).1.recv = st.recv := by
  rcases hm : st.maxCalls w.wrapped with _ | m
  · rw [runWrapper_of_none st w raises hm]
  · rw [runWrapper_of_some st w raises m hm]; split <;> rfl

theorem runWrapper_keys (st : State) (w : Wrapper) (raises : Nat → Option Nat) :
    (runWrapper st w raises).1.keys = st.keys := by
  rcases hm : st.maxCalls w.wrapped with _ | m
  · rw [runWrapper_of_none st w raises hm]
  · rw [runWrapper_of_some st w raises m hm]; split <;> rfl

theorem runWrapper_maxCalls_ne (st : State) (w : Wrapper) (raises : Nat → Option Nat)
    (c : Nat) (h : w.wrapped ≠ c) :
    (runWrapper st w raises).1.maxCalls c = st.maxCalls c := by
  rcases hm : st.maxCalls w.wrapped with _ | m
  · rw [runWrapper_of_none st w raises hm]
  · rw [runWrapper_of_some st w raises m hm]
    split
    · simp only [updf]
      rw [if_neg (fun heq => h heq.symm)]
    · rfl

theorem runWrapper_exn_none (st : State) (w : Wrapper) (raises : Nat → Option Nat)
    (h : raises w.wrapped = none) : (runWrapper st w raises).2.2 = none := by
  rcases hm : st.maxCalls w.wrapped with _ | m
  · rw [runWrapper_of_none st w raises hm]; exact h
  · rw [runWrapper_of_some st w raises m hm]; split <;> simp [h]

theorem runWrapper_raised (st : State) (w : Wrapper) (raises : Nat → Option Nat)
    (e : Nat) (h : (runWrapper st w raises).2.2 = some e) :
    raises w.wrapped = some e := by
  rcases hm : st.maxCalls w.wrapped with _ | m
  · rw [runWrapper_of_none st w raises hm] at h; exact h
  · rw [runWrapper_of_some st w raises m hm] at h
    by_cases h0 : 0 < m
    · rw [if_pos h0] at h; exact h
    · rw [if_neg h0] at h; exact absurd h (by simp)

theorem emitList_st {α : Type} (st : State) (ws : List Wrapper) (args : α)
    (raises : Nat → Option Nat) :
    (emitList st ws args raises).st.recv = st.recv ∧
    (emitList st ws args raises).st.keys = st.keys := by
  induction ws generalizing st with
  | nil => exact ⟨rfl, rfl⟩
  | cons w rest ih =>
    rcases hrw : runWrapper st w raises with ⟨st', ex, exn⟩
    have h1 : st'.recv = st.recv := by
      have := runWrapper_recv st w raises; rw [hrw] at this; exact this
    have h2 : st'.keys = st.keys := by
      have := runWrapper_keys st w raises; rw [hrw] at this; exact this
    cases exn with
    | some e => simp only [emitList, hrw]; exact ⟨h1, h2⟩
    | none =>
      simp only [emitList, hrw]
      rcases ih st' with ⟨ih1, ih2⟩
      exact ⟨ih1.trans h1, ih2.trans h2⟩

theorem emit_recv {α : Type} (st : State) (s : Nat) (args : α)
    (raises : Nat → Option Nat) :
    (emit st s args raises).st.recv = st.recv := by
  unfold emit
  rw [(emitList_st _ _ _ _).1, accessKey_recv]

theorem emit_keys {α : Type} (st : State) (s : Nat) (args : α)
    (raises : Nat → Option Nat) :
    (emit st s args raises).st.keys = (accessKey st s).keys := by
  unfold emit
  rw [(emitList_st _ _ _ _).2]

/-! ### Trace lemmas for `emitList` -/

theorem emitList_noRaise {α : Type} (st : State) (ws : List Wrapper) (args : α)
    (raises : Nat → Option Nat) (h : ∀ w ∈ ws, raises w.wrapped = none) :
    (emitList st ws args raises).exn = none ∧
    (emitList st ws args raises).wtrace = ws.map (fun w => (w.wid, args)) := by
  induction ws generalizing st with
  | nil => exact ⟨rfl, rfl⟩
  | cons w rest ih =>
    have hw : raises w.wrapped = none := h w (List.mem_cons_self _ _)
    have hrest : ∀ w' ∈ rest, raises w'.wrapped = none :=
      fun w' hm => h w' (List.mem_cons_of_mem _ hm)
    rcases hrw : runWrapper st w raises with ⟨st', ex, exn⟩
    have hexn : exn = none := by
      have := runWrapper_exn_none st w raises hw; rw [hrw] at this; exact this
    subst hexn
    simp only [emitList, hrw, List.map_cons]
    rcases ih st' hrest with ⟨ih1, ih2⟩
    exact ⟨ih1, by rw [ih2]⟩

theorem emitList_noC {α : Type} (st : State) (ws : List Wrapper) (args : α)
    (raises : Nat → Option Nat) (c : Nat) (h : ∀ w ∈ ws, w.wrapped ≠ c) :
    (emitList st ws args raises).st.maxCalls c = st.maxCalls c ∧
    cCount c (emitList st ws args raises).ctrace = 0 := by
  induction ws generalizing st with
  | nil => exact ⟨rfl, rfl⟩
  | cons w rest ih =>
    have hw : w.wrapped ≠ c := h w (List.mem_cons_self _ _)
    have hrest : ∀ w' ∈ rest, w'.wrapped ≠ c :=
      fun w' hm => h w' (List.mem_cons_of_mem _ hm)
    rcases hrw : runWrapper st w raises with ⟨st', ex, exn⟩
    have hmc : st'.maxCalls c = st.maxCalls c := by
      have := runWrapper_maxCalls_ne st w raises c hw; rw [hrw] at this; exact this
    have hct : cCount c (if ex then [(w.wrapped, args)] else []) = 0 := by
      cases ex <;> simp [cCount, hw]
    cases exn with
    | some e =>
      simp only [emitList, hrw]
      exact ⟨hmc, hct⟩
    | none =>
      simp only [emitList, hrw]
      rcases ih st' hrest with ⟨ih1, ih2⟩
      refine ⟨ih1.trans hmc, ?_⟩
      simp only [cCount, List.countP_append] at hct ih2 ⊢
      omega

theorem emitList_oneC {α : Type} (st : State) (ws : List Wrapper) (args : α)
    (raises : Nat → Option Nat) (c : Nat) (m : Int)
    (hm : st.maxCalls c = some m)
    (hcount : ws.countP (fun w => w.wrapped == c) = 1)
    (hraise : ∀ w ∈ ws, raises w.wrapped = none) :
    (emitList st ws args raises).st.maxCalls c = some (if 0 < m then m - 1 else m) ∧
    cCount c (emitList st ws args raises).ctrace = (if 0 < m then 1 else 0) ∧
    (emitList st ws args raises).exn = none := by
  induction ws generalizing st with
  | nil => simp at hcount
  | cons w rest ih =>
    have hw : raises w.wrapped = none := hraise w (List.mem_cons_self _ _)
    have hrest : ∀ w' ∈ rest, raises w'.wrapped = none :=
      fun w' hmem => hraise w' (List.mem_cons_of_mem _ hmem)
    rcases hrw : runWrapper st w raises with ⟨st', ex, exn⟩
    have hexn : exn = none := by
      have := runWrapper_exn_none st w raises hw; rw [hrw] at this; exact this
    subst hexn
    by_cases hwc : w.wrapped = c
    · -- the head is the unique wrapper of `c`; the tail has none
      have hrest0 : ∀ w' ∈ rest, w'.wrapped ≠ c := by
        rw [List.countP_cons] at hcount
        simp [hwc] at hcount
        exact hcount
      have hrun := runWrapper_of_some st w raises m (by rw [hwc]; exact hm)
      rw [hrw] at hrun
      by_cases h0 : 0 < m
      · rw [if_pos h0] at hrun
        have hst' : st' = { st with maxCalls := updf st.maxCalls w.wrapped (some (m - 1)) } :=
          congrArg Prod.fst hrun
        have hex : ex = true := congrArg (fun p => p.2.1) hrun
        have hmc' : st'.maxCalls c = some (m - 1) := by
          rw [hst']; simp [updf, hwc]
        rcases emitList_noC st' rest args raises c hrest0 with ⟨n1, n2⟩
        rcases emitList_noRaise st' rest args raises hrest with ⟨e1, _⟩
        simp only [emitList, hrw]
        refine ⟨by rw [n1, hmc', if_pos h0], ?_, e1⟩
        rw [if_pos h0, hex]
        simp only [cCount, List.countP_append] at n2 ⊢
        simp [cCount, hwc, n2]
      · rw [if_neg h0] at hrun
        have hst' : st' = st := congrArg Prod.fst hrun
        have hex : ex = false := congrArg (fun p => p.2.1) hrun
        rcases emitList_noC st' rest args raises c hrest0 with ⟨n1, n2⟩
        rcases emitList_noRaise st' rest args raises hrest with ⟨e1, _⟩
        simp only [emitList, hrw]
        refine ⟨by rw [n1, hst', hm, if_neg h0], ?_, e1⟩
        rw [if_neg h0, hex]
        simpa [cCount] using n2
    · -- the head wraps some other callback
      have hrest1 : rest.countP (fun w => w.wrapped == c) = 1 := by
        rw [List.countP_cons] at hcount
        simpa [hwc] using hcount
      have hmc : st'.maxCalls c = st.maxCalls c := by
        have := runWrapper_maxCalls_ne st w raises c hwc
        rw [hrw] at this; exact this
      have hct : cCount c (if ex then [(w.wrapped, args)] else []) = 0 := by
        cases ex <;> simp [cCount, hwc]
      rcases ih st' (hmc.trans hm) hrest1 hrest with ⟨i1, i2, i3⟩
      simp only [emitList, hrw]
      refine ⟨i1, ?_, i3⟩
      simp only [cCount, List.countP_append] at hct i2 ⊢
      omega

/-! ### Lemmas about `emit` and repeated emits -/

theorem emit_oneC {α : Type} (st : State) (s : Nat) (args : α)
    (raises : Nat → Option Nat) (c : Nat) (m : Int)
    (hm : st.maxCalls c = some m)
    (hcount : (st.recv s).countP (fun w => w.wrapped == c) = 1)
    (hraise : ∀ w ∈ st.recv s, raises w.wrapped = none) :
    (emit st s args raises).st.maxCalls c = some (if 0 < m then m - 1 else m) ∧
    cCount c (emit st s args raises).ctrace = (if 0 < m then 1 else 0) ∧
    (emit st s args raises).exn = none := by
  exact emitList_oneC (accessKey st s) ((accessKey st s).recv s) args raises c m
    (by rw [accessKey_maxCalls]; exact hm)
    (by rw [accessKey_recv]; exact hcount)
    (by rw [accessKey_recv]; exact hraise)

theorem emit_noC {α : Type} (st : State) (s : Nat) (args : α)
    (raises : Nat → Option Nat) (c : Nat)
    (h : ∀ w ∈ st.recv s, w.wrapped ≠ c) :
    (emit st s args raises).st.maxCalls c = st.maxCalls c ∧
    cCount c (emit st s args raises).ctrace = 0 := by
  rcases emitList_noC (accessKey st s) ((accessKey st s).recv s) args raises c
    (by rw [accessKey_recv]; exact h) with ⟨h1, h2⟩
  exact ⟨h1.trans (congrFun (accessKey_maxCalls st s) c), h2⟩

theorem iterEmits_recv {α : Type} (st : State) (sigs : List Nat) (args : α)
    (raises : Nat → Option Nat) :
    (iterEmits st sigs args raises).1.recv = st.recv := by
  induction sigs generalizing st with
  | nil => rfl
  | cons s rest ih =>
    simp only [iterEmits]
    rw [ih, emit_recv]

theorem iterEmits_len {α : Type} (st : State) (sigs : List Nat) (args : α)
    (raises : Nat → Option Nat) :
    (iterEmits st sigs args raises).2.length = sigs.length := by
  induction sigs generalizing st with
  | nil => rfl
  | cons s rest ih =>
    simp only [iterEmits, List.length_cons]
    rw [ih]

/-- Per-emit execution counts of a callback `c` that is wrapped by
exactly one registered wrapper of each emitted signal: with
`_max_calls = m`, the `i`-th emit really executes the body exactly when
`i < m`. -/
theorem iterEmits_per {α : Type} (st : State) (sigs : List Nat) (args : α)
    (raises : Nat → Option Nat) (c : Nat) (m : Int)
    (hm : st.maxCalls c = some m)
    (hcount : ∀ t ∈ sigs, (st.recv t).countP (fun w => w.wrapped == c) = 1)
    (hraise : ∀ t ∈ sigs, ∀ w ∈ st.recv t, raises w.wrapped = none) :
    ∀ i, i < sigs.length →
      cCount c ((iterEmits st sigs args raises).2.getD i []) =
        if (i : Int) < m then 1 else 0 := by
  induction sigs generalizing st m with
  | nil => intro i hi; exact absurd hi (by simp)
  | cons t rest ih =>
    intro i hi
    have hco : (st.recv t).countP (fun w => w.wrapped == c) = 1 :=
      hcount t (List.mem_cons_self _ _)
    have hra : ∀ w ∈ st.recv t, raises w.wrapped = none :=
      hraise t (List.mem_cons_self _ _)
    rcases emit_oneC st t args raises c m hm hco hra with ⟨e1, e2, _⟩
    have hrecv : (emit st t args raises).st.recv = st.recv := emit_recv st t args raises
    cases i with
    | zero =>
      simp only [iterEmits, List.getD_cons_zero]
      rw [e2]
      norm_num
    | succ i =>
      simp only [iterEmits, List.getD_cons_succ]
      have hcount' : ∀ u ∈ rest, ((emit st t args raises).st.recv u).countP
          (fun w => w.wrapped == c) = 1 := by
        intro u hu; rw [hrecv]; exact hcount u (List.mem_cons_of_mem _ hu)
      have hraise' : ∀ u ∈ rest, ∀ w ∈ (emit st t args raises).st.recv u,
          raises w.wrapped = none := by
        intro u hu; rw [hrecv]; exact hraise u (List.mem_cons_of_mem _ hu)
      have hi' : i < rest.length := by simpa using hi
      have := ih (emit st t args raises).st (if 0 < m then m - 1 else m) e1
        hcount' hraise' i hi'
      rw [this]
      by_cases h0 : 0 < m
      · rw [if_pos h0]
        exact if_congr (by omega) rfl rfl
      · rw [if_neg h0]
        have hm0 : m ≤ 0 := not_lt.mp h0
        rw [if_neg (by omega : ¬((i : Int) < m)),
          if_neg (by push_cast; omega : ¬(((i + 1 : Nat) : Int) < m))]

/-- Total execution count of a callback `c` wrapped by exactly one
registered wrapper of each emitted signal: `min` of the number of emits
and the (nonnegative) `_max_calls` budget. -/
theorem iterEmits_total {α : Type} (st : State) (sigs : List Nat) (args : α)
    (raises : Nat → Option Nat) (c : Nat) (m : Int)
    (hm : st.maxCalls c = some m) (h0 : 0 ≤ m)
    (hcount : ∀ t ∈ sigs, (st.recv t).countP (fun w => w.wrapped == c) = 1)
    (hraise : ∀ t ∈ sigs, ∀ w ∈ st.recv t, raises w.wrapped = none) :
    (((iterEmits st sigs args raises).2.map (cCount c)).sum) =
      min sigs.length m.toNat := by
  induction sigs generalizing st m with
  | nil => simp [iterEmits]
  | cons t rest ih =>
    have hco : (st.recv t).countP (fun w => w.wrapped == c) = 1 :=
      hcount t (List.mem_cons_self _ _)
    have hra : ∀ w ∈ st.recv t, raises w.wrapped = none :=
      hraise t (List.mem_cons_self _ _)
    rcases emit_oneC st t args raises c m hm hco hra with ⟨e1, e2, _⟩
    have hrecv : (emit st t args raises).st.recv = st.recv := emit_recv st t args raises
    have hcount' : ∀ u ∈ rest, ((emit st t args raises).st.recv u).countP
        (fun w => w.wrapped == c) = 1 := by
      intro u hu; rw [hrecv]; exact hcount u (List.mem_cons_of_mem _ hu)
    have hraise' : ∀ u ∈ rest, ∀ w ∈ (emit st t args raises).st.recv u,
        raises w.wrapped = none := by
      intro u hu; rw [hrecv]; exact hraise u (List.mem_cons_of_mem _ hu)
    have h0' : 0 ≤ (if 0 < m then m - 1 else m) := by split <;> omega
    have ihr := ih (emit st t args raises).st (if 0 < m then m - 1 else m) e1 h0'
      hcount' hraise'
    simp only [iterEmits, List.map_cons, List.sum_cons]
    rw [ihr, e2]
    by_cases hp : 0 < m
    · rw [if_pos hp, if_pos hp]
      have ht : m.toNat = (m - 1).toNat + 1 := by omega
      rw [ht]
      simp only [List.length_cons]
      omega
    · rw [if_neg hp, if_neg hp]
      have ht : m.toNat = 0 := by omega
      rw [ht]
      simp

/-! ### Lemmas about registration -/

theorem addWrapper_recv (st : State) (s : Nat) (w : Wrapper) (t : Nat) :
    (addWrapper st s w).recv t =
      if t = s then
        (if w ∈ st.recv s then st.recv s else st.recv s ++ [w])
      else st.recv t := by
  unfold addWrapper
  have hr : (accessKey st s).recv = st.recv := accessKey_recv st s
  by_cases hmem : w ∈ (accessKey st s).recv s
  · rw [if_pos hmem]
    rw [hr] at hmem ⊢
    by_cases hts : t = s
    · rw [if_pos hts, if_pos hmem, hts]
    · rw [if_neg hts]
  · rw [if_neg hmem]
    rw [hr] at hmem
    by_cases hts : t = s
    · simp only [updf, hts, if_pos rfl, hr]
      rw [if_neg hmem]
    · simp only [updf, if_neg hts, hr]

theorem addWrapper_maxCalls (st : State) (s : Nat) (w : Wrapper) :
    (addWrapper st s w).maxCalls = st.maxCalls := by
  simp only [addWrapper]
  have := accessKey_maxCalls st s
  split <;> simp_all

theorem accessKey_keys_mono (st : State) (s t : Nat) (h : t ∈ st.keys) :
    t ∈ (accessKey st s).keys := by
  unfold accessKey
  split
  · exact h
  · simp [h]

theorem addWrapper_keys_mem (st : State) (s : Nat) (w : Wrapper) :
    s ∈ (addWrapper st s w).keys := by
  simp only [addWrapper]
  have := accessKey_mem st s
  split <;> simp_all

theorem addWrapper_keys_mono (st : State) (s : Nat) (w : Wrapper) (t : Nat)
    (h : t ∈ st.keys) : t ∈ (addWrapper st s w).keys := by
  simp only [addWrapper]
  have := accessKey_keys_mono st s t h
  split <;> simp_all

/-- Effect of `_on` for a single signal on a callback `c` that has no
wrapper anywhere in the registry: its fresh wrapper is appended to the
signal's receiver set, nothing else changes in the receiver map, and the
`_max_calls` attribute of `c` becomes the given limit. -/
theorem onCore_one (st : State) (s c : Nat) (mc : Option Int)
    (hfresh : ∀ w' ∈ st.recv s, w'.wrapped ≠ c) :
    (onCore st (.one s) c mc).2 = ⟨st.nextWid, c⟩ ∧
    (onCore st (.one s) c mc).1.recv s = st.recv s ++ [⟨st.nextWid, c⟩] ∧
    (∀ t, t ≠ s → (onCore st (.one s) c mc).1.recv t = st.recv t) ∧
    (onCore st (.one s) c mc).1.maxCalls = updf st.maxCalls c mc ∧
    s ∈ (onCore st (.one s) c mc).1.keys := by
  have hnotmem : (⟨st.nextWid, c⟩ : Wrapper) ∉ st.recv s := by
    intro hmem
    exact hfresh _ hmem rfl
  refine ⟨rfl, ?_, ?_, ?_, ?_⟩
  · show (addWrapper _ s _).recv s = _
    rw [addWrapper_recv]
    simp [hnotmem]
  · intro t ht
    show (addWrapper _ s _).recv t = _
    rw [addWrapper_recv, if_neg ht]
  · show (addWrapper _ s _).maxCalls = _
    rw [addWrapper_maxCalls]
  · exact addWrapper_keys_mem _ s _

theorem addWrapper_recv_fresh (st : State) (s : Nat) (w : Wrapper)
    (hw : w ∉ st.recv s) (t : Nat) :
    (addWrapper st s w).recv t =
      if t = s then st.recv s ++ [w] else st.recv t := by
  rw [addWrapper_recv]
  by_cases hts : t = s
  · rw [if_pos hts, if_pos hts, if_neg hw]
  · rw [if_neg hts, if_neg hts]

theorem addWrapper_mem (st : State) (s : Nat) (w : Wrapper) :
    w ∈ (addWrapper st s w).recv s := by
  rw [addWrapper_recv, if_pos rfl]
  split
  · assumption
  · simp

/-- Effect of `_on` for a two-signal list on a callback `c` that has no
wrapper anywhere in the registry: one single fresh wrapper is appended to
the receiver set of both signals, and the `_max_calls` attribute of `c`
becomes the given limit. -/
theorem onCore_two (st : State) (s s2 c : Nat) (mc : Option Int)
    (hfresh : ∀ t, ∀ w' ∈ st.recv t, w'.wrapped ≠ c) :
    (onCore st (.many [s, s2]) c mc).2 = ⟨st.nextWid, c⟩ ∧
    (∀ t, (onCore st (.many [s, s2]) c mc).1.recv t =
      if t = s ∨ t = s2 then st.recv t ++ [⟨st.nextWid, c⟩] else st.recv t) ∧
    (onCore st (.many [s, s2]) c mc).1.maxCalls = updf st.maxCalls c mc := by
  have hw : ∀ t, (⟨st.nextWid, c⟩ : Wrapper) ∉ st.recv t := by
    intro t hmem
    exact hfresh t _ hmem rfl
  have hunf : (onCore st (.many [s, s2]) c mc).1 =
      addWrapper
        (addWrapper
          { st with maxCalls := updf st.maxCalls c mc, nextWid := st.nextWid + 1 }
          s ⟨st.nextWid, c⟩)
        s2 ⟨st.nextWid, c⟩ := rfl
  have h1 : ∀ t,
      (addWrapper
        { st with maxCalls := updf st.maxCalls c mc, nextWid := st.nextWid + 1 }
        s ⟨st.nextWid, c⟩).recv t =
      if t = s then st.recv s ++ [⟨st.nextWid, c⟩] else st.recv t :=
    addWrapper_recv_fresh _ s _ (hw s)
  refine ⟨rfl, ?_, ?_⟩
  · intro t
    rw [hunf]
    by_cases hss : s2 = s
    · have hmem : (⟨st.nextWid, c⟩ : Wrapper) ∈
          (addWrapper
            { st with maxCalls := updf st.maxCalls c mc, nextWid := st.nextWid + 1 }
            s ⟨st.nextWid, c⟩).recv s2 := by
        rw [h1 s2, if_pos hss]
        simp
      rw [addWrapper_recv]
      by_cases hts2 : t = s2
      · rw [if_pos hts2, if_pos hmem, hts2, h1 s2, if_pos hss, hss]
        rw [if_pos (Or.inl rfl)]
      · rw [if_neg hts2, h1 t]
        by_cases hts : t = s
        · rw [if_pos hts, if_pos (Or.inl hts), hts]
        · rw [if_neg hts, if_neg (by tauto)]
    · have hnm : (⟨st.nextWid, c⟩ : Wrapper) ∉
          (addWrapper
            { st with maxCalls := updf st.maxCalls c mc, nextWid := st.nextWid + 1 }
            s ⟨st.nextWid, c⟩).recv s2 := by
        rw [h1 s2, if_neg hss]
        exact hw s2
      rw [addWrapper_recv_fresh _ s2 _ hnm t]
      by_cases hts2 : t = s2
      · rw [if_pos hts2, h1 s2, if_neg hss, if_pos (Or.inr hts2), hts2]
      · rw [if_neg hts2, h1 t]
        by_cases hts : t = s
        · rw [if_pos hts, if_pos (Or.inl hts), hts]
        · rw [if_neg hts, if_neg (by tauto)]
  · rw [hunf, addWrapper_maxCalls, addWrapper_maxCalls]

/-- When the invocation loop ends with an exception, the wrapper
invocations performed are exactly the prefix of the iteration order up to
and including the raising wrapper, and the escaping exception is the one
that wrapper's callback raised. -/
theorem emitList_raise_prefix {α : Type} (st : State) (ws : List Wrapper)
    (args : α) (raises : Nat → Option Nat) (e : Nat)
    (h : (emitList st ws args raises).exn = some e) :
    ∃ k, k < ws.length ∧
      (emitList st ws args raises).wtrace =
        ((ws.take (k + 1)).map fun w => (w.wid, args)) ∧
      raises (ws.getD k ⟨0, 0⟩).wrapped = some e := by
  induction ws generalizing st with
  | nil => exact absurd h (by simp [emitList])
  | cons w rest ih =>
    rcases hrw : runWrapper st w raises with ⟨st', ex, exn⟩
    cases exn with
    | some e' =>
      have hsome : (emitList st (w :: rest) args raises).exn = some e' := by
        simp only [emitList, hrw]
      have he : e' = e := Option.some.inj (hsome.symm.trans h)
      subst he
      refine ⟨0, by simp, ?_, ?_⟩
      · simp only [emitList, hrw]
        simp
      · have hraised := runWrapper_raised st w raises e' (by rw [hrw])
        simpa using hraised
    | none =>
      have h' : (emitList st' rest args raises).exn = some e := by
        have : (emitList st (w :: rest) args raises).exn =
            (emitList st' rest args raises).exn := by
          simp only [emitList, hrw]
        rw [this] at h
        exact h
      obtain ⟨k, hk, hwt, hr⟩ := ih st' h'
      refine ⟨k + 1, by simpa using hk, ?_, ?_⟩
      · have : (emitList st (w :: rest) args raises).wtrace =
            (w.wid, args) :: (emitList st' rest args raises).wtrace := by
          simp only [emitList, hrw]
        rw [this, hwt, List.take_succ_cons, List.map_cons]
      · simpa using hr

/-! ### Example states used by the witnesses -/

/-- One callback (id 5) registered for signal 0 with no call limit. -/
def exSt1 : State := (onCore initState (.one 0) 5 none).1

/-- Three unlimited callbacks (ids 1, 2, 3) registered for signal 0 by
three separate registrations. -/
def exSt3 : State :=
  (onCore ((onCore ((onCore initState (.one 0) 1 none).1) (.one 0) 2 none).1)
    (.one 0) 3 none).1

/-- A callback environment in which callback 2 raises exception 9 and
every other callback returns normally. -/
def exRaises : Nat → Option Nat := fun c => if c = 2 then some 9 else none

/-- Callback 1 registered for signals 0 and 3 (two registrations), and
callback 2 registered for signal 0. -/
def exSt5 : State :=
  (onCore ((onCore ((onCore initState (.one 0) 1 none).1) (.one 3) 1 none).1)
    (.one 0) 2 none).1

/-! ### The claims -/

/-- Claim C1: for every signal `s` and argument package, `emit`
invokes each wrapper currently registered for `s` exactly once during
that emit call (the invocation trace is exactly the registered list, in
iteration order), passing the arguments to it unchanged — provided no
callback body raises (the exception case is covered by claim C4). -/
theorem emit_invokes_each_wrapper_once {α : Type} (st : State) (s : Nat)
    (args : α) (raises : Nat → Option Nat)
    (h : ∀ w ∈ st.recv s, raises w.wrapped = none) :
    (emit st s args raises).wtrace = (st.recv s).map (fun w => (w.wid, args)) ∧
    (emit st s args raises).exn = none := by
  have h' : ∀ w ∈ (accessKey st s).recv s, raises w.wrapped = none := by
    rw [accessKey_recv]; exact h
  rcases emitList_noRaise (accessKey st s) ((accessKey st s).recv s) args raises h'
    with ⟨e1, e2⟩
  refine ⟨?_, e1⟩
  rw [show (emit st s args raises).wtrace =
    (emitList (accessKey st s) ((accessKey st s).recv s) args raises).wtrace from rfl]
  rw [e2, accessKey_recv]

/-- Witness for C1: in a registry with callback 5 registered for
signal 0, emitting signal 0 with argument 42 invokes its wrapper exactly
once with argument 42 and raises nothing. -/
theorem emit_invokes_each_wrapper_once_witness :
    (∀ w ∈ exSt1.recv 0, (fun _ : Nat => (none : Option Nat)) w.wrapped = none) ∧
    (emit exSt1 0 (42 : Nat) (fun _ => none)).wtrace =
      (exSt1.recv 0).map (fun w => (w.wid, 42)) ∧
    (emit exSt1 0 (42 : Nat) (fun _ => none)).exn = none :=
  ⟨fun _ _ => rfl,
    emit_invokes_each_wrapper_once exSt1 0 42 (fun _ => none) (fun _ _ => rfl)⟩

/-- Claim C3: immediately after a successful `on(s, c)` registration of a
callable `c`, the call returned the new wrapper, `responds_to(c, s)` is
true and `s` is a member of `signals(c)`. -/
theorem on_registration_visible (st : State) (s c : Nat) (mc : Option Int) :
    on' st (.one s) (.callable c) mc =
      .ok ((onCore st (.one s) c mc).1, .wrapper (onCore st (.one s) c mc).2) ∧
    (responds_to (onCore st (.one s) c mc).1 (.orig c) s).2 = true ∧
    s ∈ signals (onCore st (.one s) c mc).1 (.orig c) := by
  have hmem : (⟨st.nextWid, c⟩ : Wrapper) ∈ (onCore st (.one s) c mc).1.recv s :=
    addWrapper_mem _ s _
  have hresp : (responds_to (onCore st (.one s) c mc).1 (.orig c) s).2 = true := by
    show ((accessKey (onCore st (.one s) c mc).1 s).recv s).any
      (respondsMatch (.orig c)) = true
    rw [accessKey_recv]
    exact List.any_eq_true.mpr ⟨_, hmem, by simp [respondsMatch]⟩
  refine ⟨rfl, hresp, ?_⟩
  have hkey : s ∈ (onCore st (.one s) c mc).1.keys := addWrapper_keys_mem _ s _
  exact List.mem_filter.mpr ⟨hkey, hresp⟩

/-- Claim C4: if a callback raises during `emit`, that exception
propagates unmodified to the caller (it is the exception of the raising
wrapper's callback) and no further registered callbacks are invoked in
that emit call: the invocation trace is exactly the prefix of the
iteration order ending at the raising wrapper. -/
theorem emit_exception_aborts {α : Type} (st : State) (s : Nat) (args : α)
    (raises : Nat → Option Nat) (e : Nat)
    (h : (emit st s args raises).exn = some e) :
    ∃ k, k < (st.recv s).length ∧
      (emit st s args raises).wtrace =
        (((st.recv s).take (k + 1)).map fun w => (w.wid, args)) ∧
      raises ((st.recv s).getD k ⟨0, 0⟩).wrapped = some e := by
  have h' : (emitList (accessKey st s) ((accessKey st s).recv s) args raises).exn =
      some e := h
  obtain ⟨k, hk, hwt, hr⟩ :=
    emitList_raise_prefix (accessKey st s) ((accessKey st s).recv s) args raises e h'
  rw [accessKey_recv] at hk hr
  refine ⟨k, hk, ?_, hr⟩
  show (emitList (accessKey st s) ((accessKey st s).recv s) args raises).wtrace = _
  rw [hwt, accessKey_recv]

/-- Witness for C4: with callbacks 1, 2, 3 registered for signal 0 and
callback 2 raising exception 9, the emit escapes with exception 9, having
invoked only the wrappers up to callback 2's. -/
theorem emit_exception_aborts_witness :
    (emit exSt3 0 (0 : Nat) exRaises).exn = some 9 ∧
    ∃ k, k < (exSt3.recv 0).length ∧
      (emit exSt3 0 (0 : Nat) exRaises).wtrace =
        (((exSt3.recv 0).take (k + 1)).map fun w => (w.wid, 0)) ∧
      exRaises ((exSt3.recv 0).getD k ⟨0, 0⟩).wrapped = some 9 :=
  ⟨by decide, emit_exception_aborts exSt3 0 0 exRaises 9 (by decide)⟩

/-- Claim C6: `clear(s)` empties the registered-callback set of `s`,
leaves `s` present as a key, and leaves the registration set of every
other signal unchanged. -/
theorem clear_empties_only_given (st : State) (s : Nat) :
    (clear st [s]).recv s = [] ∧
    s ∈ (clear st [s]).keys ∧
    ∀ t, t ≠ s → (clear st [s]).recv t = st.recv t := by
  have hunf : clear st [s] =
      { accessKey st s with recv := updf (accessKey st s).recv s [] } := rfl
  refine ⟨?_, ?_, ?_⟩
  · rw [hunf]; simp [updf]
  · rw [hunf]; exact accessKey_mem st s
  · intro t ht
    rw [hunf]
    show updf (accessKey st s).recv s [] t = st.recv t
    simp only [updf, if_neg ht]
    rw [accessKey_recv]

/-- Witness for C6: clearing signal 0 in the three-callback registry
empties signal 0, keeps the key, and leaves signal 3 untouched. -/
theorem clear_empties_only_given_witness :
    (clear exSt5 [0]).recv 0 = [] ∧
    0 ∈ (clear exSt5 [0]).keys ∧
    (clear exSt5 [0]).recv 3 = exSt5.recv 3 :=
  ⟨(clear_empties_only_given exSt5 0).1,
    (clear_empties_only_given exSt5 0).2.1,
    (clear_empties_only_given exSt5 0).2.2 3 (by decide)⟩

/-- Counterexample for claim C7 as stated: emitting a signal with zero
registered callbacks DOES change the registry state — the defaultdict
access `_receivers[signal]` inserts the emitted signal as a new key.
Starting from the empty registry, emitting signal 0 leaves key 0 behind. -/
theorem emit_creates_key_cex :
    ¬((emit initState (0 : Nat) (0 : Nat) (fun _ => none)).st.keys =
      initState.keys) := by
  decide

/-- Claim C7 (amended): emitting a signal with zero registered callbacks
does not raise, invokes nothing, and leaves every signal's receiver set
and every `_max_calls` attribute unchanged; however, it inserts the
emitted signal as a registry key (mapped to the empty set) when absent,
because the defaultdict access `_receivers[signal]` creates keys — key
creation is not limited to registration. -/
theorem emit_empty_signal {α : Type} (st : State) (s : Nat) (args : α)
    (raises : Nat → Option Nat) (h : st.recv s = []) :
    (emit st s args raises).exn = none ∧
    (emit st s args raises).wtrace = [] ∧
    (emit st s args raises).ctrace = [] ∧
    (emit st s args raises).st.recv = st.recv ∧
    (emit st s args raises).st.maxCalls = st.maxCalls ∧
    (emit st s args raises).st.keys =
      (if s ∈ st.keys then st.keys else st.keys ++ [s]) := by
  have h1 : (accessKey st s).recv s = [] := by rw [accessKey_recv]; exact h
  have he : emit st s args raises = ⟨accessKey st s, [], [], none⟩ := by
    show emitList (accessKey st s) ((accessKey st s).recv s) args raises = _
    rw [h1]
    rfl
  rw [he]
  exact ⟨rfl, rfl, rfl, accessKey_recv st s, accessKey_maxCalls st s,
    accessKey_keys st s⟩

/-- Witness for C7 (amended): emitting the unregistered signal 0 on the
empty registry raises nothing and creates key 0. -/
theorem emit_empty_signal_witness :
    initState.recv 0 = [] ∧
    (emit initState 0 (0 : Nat) (fun _ => none)).exn = none ∧
    (emit initState 0 (0 : Nat) (fun _ => none)).st.keys =
      (if 0 ∈ initState.keys then initState.keys else initState.keys ++ [0]) :=
  ⟨rfl, (emit_empty_signal initState 0 0 (fun _ => none) rfl).1,
    (emit_empty_signal initState 0 0 (fun _ => none) rfl).2.2.2.2.2⟩

/-- Claim C8: registering a non-invocable (non-int, non-None) value as a
callback via `on` or `once` fails with the `AssertionError` of `_on`, and
the failure happens before any registry mutation: the error carries the
caller's state unchanged. -/
theorem register_noncallable_fails (st : State) (sigs : SigArg) (mc : Option Int) :
    on' st sigs .notCallable mc =
      .error ("Signal callbacks must be callable", st) ∧
    once st sigs .notCallable =
      .error ("Signal callbacks must be callable", st) ∧
    _on st sigs .notCallable mc =
      .error ("Signal callbacks must be callable", st) :=
  ⟨rfl, rfl, rfl⟩

/-- Claim C10: calling `on(s, k)` with an integer `k` in the callback
position does not raise: the int is re-interpreted as a positional
`max_calls`, no registration is performed (the state is returned
untouched), no invocability assertion fires, and the result is the
decorator-style registrar `functools`-closure for `_on` with
`max_calls = k`. -/
theorem on_int_returns_registrar (st : State) (sigs : SigArg) (k : Int)
    (mc : Option Int) :
    on' st sigs (.intVal k) mc = .ok (st, .registrar sigs (some k)) :=
  rfl

/-- Claim C5: `disconnect_from(c, s)` removes exactly the wrappers of `c`
from `s`'s receiver set (every other callback's registration for `s`
survives the filter), leaves every other signal's registrations
unchanged, makes `responds_to(c, s)` false while `responds_to(c, s2)`
keeps its previous value for every other signal `s2`, and is a total
no-op on the receiver map (raising nothing) when no registration of `c`
for `s` exists. -/
theorem disconnect_from_removes_only (st : State) (c s : Nat) :
    (disconnect_from st (.orig c) (.one s)).recv s =
      (st.recv s).filter (fun w => !(w.wrapped == c)) ∧
    (∀ t, t ≠ s → (disconnect_from st (.orig c) (.one s)).recv t = st.recv t) ∧
    (responds_to (disconnect_from st (.orig c) (.one s)) (.orig c) s).2 = false ∧
    (∀ s2, s2 ≠ s →
      (responds_to (disconnect_from st (.orig c) (.one s)) (.orig c) s2).2 =
        (responds_to st (.orig c) s2).2) ∧
    ((∀ w ∈ st.recv s, w.wrapped ≠ c) →
      ∀ t, (disconnect_from st (.orig c) (.one s)).recv t = st.recv t) := by
  have hunf : disconnect_from st (.orig c) (.one s) =
      { accessKey st s with
        recv := updf (accessKey st s).recv s
          (((accessKey st s).recv s).filter
            fun check => !(removeMatch (.orig c) check)) } := rfl
  have hrecvS : (disconnect_from st (.orig c) (.one s)).recv s =
      (st.recv s).filter (fun w => !(w.wrapped == c)) := by
    rw [hunf]
    show updf (accessKey st s).recv s _ s = _
    simp only [updf, if_pos rfl]
    rw [accessKey_recv]
    rfl
  have hrecvT : ∀ t, t ≠ s →
      (disconnect_from st (.orig c) (.one s)).recv t = st.recv t := by
    intro t ht
    rw [hunf]
    show updf (accessKey st s).recv s _ t = _
    simp only [updf, if_neg ht]
    rw [accessKey_recv]
  have hresp : (responds_to (disconnect_from st (.orig c) (.one s)) (.orig c) s).2 =
      false := by
    show ((accessKey (disconnect_from st (.orig c) (.one s)) s).recv s).any
      (respondsMatch (.orig c)) = false
    rw [accessKey_recv, hrecvS]
    simp [respondsMatch, List.any_eq_true, List.mem_filter]
  refine ⟨hrecvS, hrecvT, hresp, ?_, ?_⟩
  · intro s2 hs2
    show ((accessKey (disconnect_from st (.orig c) (.one s)) s2).recv s2).any
        (respondsMatch (.orig c)) =
      ((accessKey st s2).recv s2).any (respondsMatch (.orig c))
    rw [accessKey_recv, accessKey_recv, hrecvT s2 hs2]
  · intro hnone t
    by_cases hts : t = s
    · subst hts
      rw [hrecvS]
      apply List.filter_eq_self.mpr
      intro a ha
      simp [hnone a ha]
    · exact hrecvT t hts

/-- Witness for C5: in a registry where callback 1 is registered for
signals 0 and 3 and callback 2 for signal 0, disconnecting callback 1
from signal 0 makes `responds_to(1, 0)` false, keeps `responds_to(1, 3)`
intact and leaves signal 3's registrations unchanged. -/
theorem disconnect_from_removes_only_witness :
    (responds_to (disconnect_from exSt5 (.orig 1) (.one 0)) (.orig 1) 0).2 = false ∧
    (responds_to (disconnect_from exSt5 (.orig 1) (.one 0)) (.orig 1) 3).2 =
      (responds_to exSt5 (.orig 1) 3).2 ∧
    (disconnect_from exSt5 (.orig 1) (.one 0)).recv 3 = exSt5.recv 3 :=
  ⟨(disconnect_from_removes_only exSt5 1 0).2.2.1,
    (disconnect_from_removes_only exSt5 1 0).2.2.2.1 3 (by decide),
    (disconnect_from_removes_only exSt5 1 0).2.1 3 (by decide)⟩

theorem foldl_addWrapper_maxCalls (l : List Nat) (w : Wrapper) :
    ∀ stx : State,
      (l.foldl (fun acc s => addWrapper acc s w) stx).maxCalls = stx.maxCalls := by
  induction l with
  | nil => intro stx; rfl
  | cons s rest ih =>
    intro stx
    simp only [List.foldl_cons]
    rw [ih (addWrapper stx s w), addWrapper_maxCalls]

theorem onCore_maxCalls (st : State) (sigs : SigArg) (c : Nat) (mc : Option Int) :
    (onCore st sigs c mc).1.maxCalls = updf st.maxCalls c mc := by
  have hunf : (onCore st sigs c mc).1 =
      sigs.toList.foldl (fun acc s => addWrapper acc s ⟨st.nextWid, c⟩)
        { st with maxCalls := updf st.maxCalls c mc, nextWid := st.nextWid + 1 } :=
    rfl
  rw [hunf, foldl_addWrapper_maxCalls]

/-- Claim C2: a callback `c` new to the registry, registered by a single
`on`/`once` call for signal `s` with `max_calls = n > 0`, really executes
its body on exactly the first `n` emits of `s` (one execution per emit),
is a silent no-op on every later emit, and is still registered
(`responds_to` stays true) after any number of emits. -/
theorem max_calls_budget (st : State) (s c : Nat) (n : Int) (args : Nat)
    (raises : Nat → Option Nat) (k : Nat)
    (hn : 0 < n)
    (hfresh : ∀ t, ∀ w' ∈ st.recv t, w'.wrapped ≠ c)
    (hraises : ∀ w' ∈ st.recv s, raises w'.wrapped = none)
    (hc : raises c = none) :
    (∀ i, i < k →
      cCount c (((iterEmits (onCore st (.one s) c (some n)).1
          (List.replicate k s) args raises).2).getD i []) =
        if (i : Int) < n then 1 else 0) ∧
    (responds_to (iterEmits (onCore st (.one s) c (some n)).1
        (List.replicate k s) args raises).1 (.orig c) s).2 = true := by
  obtain ⟨hw2, hrecvS, hrecvT, hmax, hkey⟩ :=
    onCore_one st s c (some n) (hfresh s)
  have hm : (onCore st (.one s) c (some n)).1.maxCalls c = some n := by
    rw [hmax]; simp [updf]
  have hcount : ∀ t ∈ List.replicate k s,
      (((onCore st (.one s) c (some n)).1.recv t).countP
        (fun w => w.wrapped == c)) = 1 := by
    intro t ht
    obtain rfl : t = s := List.eq_of_mem_replicate ht
    rw [hrecvS, List.countP_append]
    have h0 : (st.recv t).countP (fun w => w.wrapped == c) = 0 :=
      List.countP_eq_zero.mpr (fun w hw => by simp [hfresh t w hw])
    rw [h0]
    simp
  have hraise' : ∀ t ∈ List.replicate k s,
      ∀ w ∈ (onCore st (.one s) c (some n)).1.recv t,
        raises w.wrapped = none := by
    intro t ht w hw
    obtain rfl : t = s := List.eq_of_mem_replicate ht
    rw [hrecvS] at hw
    rcases List.mem_append.mp hw with hold | hnew
    · exact hraises w hold
    · obtain rfl : w = ⟨st.nextWid, c⟩ := List.mem_singleton.mp hnew
      exact hc
  constructor
  · intro i hi
    exact iterEmits_per (onCore st (.one s) c (some n)).1 (List.replicate k s)
      args raises c n hm hcount hraise' i (by simpa using hi)
  · show ((accessKey (iterEmits (onCore st (.one s) c (some n)).1
        (List.replicate k s) args raises).1 s).recv s).any
      (respondsMatch (.orig c)) = true
    rw [accessKey_recv, iterEmits_recv, hrecvS]
    exact List.any_eq_true.mpr
      ⟨⟨st.nextWid, c⟩, List.mem_append.mpr (Or.inr (List.mem_singleton.mpr rfl)),
        by simp [respondsMatch]⟩

/-- Witness for C2: callback 7, fresh on the empty registry, registered
for signal 0 with `max_calls = 2`, then signal 0 emitted three times:
the body runs on emits 0 and 1 and not on emit 2, and the callback still
responds to signal 0. -/
theorem max_calls_budget_witness :
    (0 : Int) < 2 ∧
    (∀ i, i < 3 →
      cCount 7 (((iterEmits (onCore initState (.one 0) 7 (some 2)).1
          (List.replicate 3 0) (0 : Nat) (fun _ => none)).2).getD i []) =
        if (i : Int) < 2 then 1 else 0) ∧
    (responds_to (iterEmits (onCore initState (.one 0) 7 (some 2)).1
        (List.replicate 3 0) (0 : Nat) (fun _ => none)).1 (.orig 7) 0).2 = true :=
  ⟨by decide,
    (max_calls_budget initState 0 7 2 0 (fun _ => none) 3 (by decide)
      (fun t w' h => absurd h (List.not_mem_nil w'))
      (fun w' h => absurd h (List.not_mem_nil w')) rfl).1,
    (max_calls_budget initState 0 7 2 0 (fun _ => none) 3 (by decide)
      (fun t w' h => absurd h (List.not_mem_nil w'))
      (fun w' h => absurd h (List.not_mem_nil w')) rfl).2⟩

/-- Claim C9: the remaining-call counter is the `_max_calls` attribute of
the underlying callback object, not of the per-registration wrapper.
Hence (i) a later `on`/`once` registration of the same callback object
`c` overwrites the counter consulted by the wrapper of an earlier
registration — after the second registration the earlier wrapper executes
its body exactly according to the new limit `mc2`; and (ii) a single `on`
call registering `c` for two signals stores one shared wrapper in both
receiver sets, and a budget of `n` real executions is shared across all
emits of those signals (total executions = `min` of the number of emits
and `n`), rather than being counted per signal. -/
theorem max_calls_attribute_shared (st : State) (s s2 c : Nat)
    (mc1 mc2 : Option Int) (n : Int) (args : Nat) (raises : Nat → Option Nat)
    (L : List Nat)
    (h0 : 0 ≤ n)
    (hfresh : ∀ t, ∀ w' ∈ st.recv t, w'.wrapped ≠ c)
    (hL : ∀ t ∈ L, t = s ∨ t = s2)
    (hraise : ∀ t, ∀ w' ∈ st.recv t, raises w'.wrapped = none)
    (hc : raises c = none) :
    ((onCore st (.one s) c mc1).2.wrapped = c ∧
     (onCore (onCore st (.one s) c mc1).1 (.one s2) c mc2).1.maxCalls c = mc2 ∧
     (runWrapper (onCore (onCore st (.one s) c mc1).1 (.one s2) c mc2).1
        (onCore st (.one s) c mc1).2 raises).2.1 =
       mc2.elim true (fun m => decide (0 < m))) ∧
    ((onCore st (.many [s, s2]) c (some n)).2 ∈
        (onCore st (.many [s, s2]) c (some n)).1.recv s ∧
     (onCore st (.many [s, s2]) c (some n)).2 ∈
        (onCore st (.many [s, s2]) c (some n)).1.recv s2 ∧
     (((iterEmits (onCore st (.many [s, s2]) c (some n)).1 L args raises).2.map
        (cCount c)).sum) = min L.length n.toNat) := by
  have hover : (onCore (onCore st (.one s) c mc1).1 (.one s2) c mc2).1.maxCalls c =
      mc2 := by
    rw [onCore_maxCalls]; simp [updf]
  have hwrapped : (onCore st (.one s) c mc1).2.wrapped = c := rfl
  have hexec : (runWrapper (onCore (onCore st (.one s) c mc1).1 (.one s2) c mc2).1
      (onCore st (.one s) c mc1).2 raises).2.1 =
      mc2.elim true (fun m => decide (0 < m)) := by
    have hm : (onCore (onCore st (.one s) c mc1).1 (.one s2) c mc2).1.maxCalls
        (onCore st (.one s) c mc1).2.wrapped = mc2 := by
      rw [hwrapped]; exact hover
    cases mc2 with
    | none => rw [runWrapper_of_none _ _ raises hm]; rfl
    | some m =>
      rw [runWrapper_of_some _ _ raises m hm]
      by_cases hp : 0 < m
      · rw [if_pos hp]; simp [hp, Option.elim]
      · rw [if_neg hp]; simp [hp, Option.elim]
  obtain ⟨hq2, hrecvq, hmaxq⟩ := onCore_two st s s2 c (some n) hfresh
  have hmq : (onCore st (.many [s, s2]) c (some n)).1.maxCalls c = some n := by
    rw [hmaxq]; simp [updf]
  have hmemS : (onCore st (.many [s, s2]) c (some n)).2 ∈
      (onCore st (.many [s, s2]) c (some n)).1.recv s := by
    rw [hq2, hrecvq s, if_pos (Or.inl rfl)]
    simp
  have hmemS2 : (onCore st (.many [s, s2]) c (some n)).2 ∈
      (onCore st (.many [s, s2]) c (some n)).1.recv s2 := by
    rw [hq2, hrecvq s2, if_pos (Or.inr rfl)]
    simp
  have hcount : ∀ t ∈ L,
      (((onCore st (.many [s, s2]) c (some n)).1.recv t).countP
        (fun w => w.wrapped == c)) = 1 := by
    intro t ht
    rw [hrecvq t, if_pos (hL t ht), List.countP_append]
    have hz : (st.recv t).countP (fun w => w.wrapped == c) = 0 :=
      List.countP_eq_zero.mpr (fun w hw => by simp [hfresh t w hw])
    rw [hz]
    simp
  have hraise' : ∀ t ∈ L,
      ∀ w ∈ (onCore st (.many [s, s2]) c (some n)).1.recv t,
        raises w.wrapped = none := by
    intro t ht w hw
    rw [hrecvq t, if_pos (hL t ht)] at hw
    rcases List.mem_append.mp hw with hold | hnew
    · exact hraise t w hold
    · obtain rfl : w = ⟨st.nextWid, c⟩ := List.mem_singleton.mp hnew
      exact hc
  exact ⟨⟨hwrapped, hover, hexec⟩, hmemS, hmemS2,
    iterEmits_total (onCore st (.many [s, s2]) c (some n)).1 L args raises c n
      hmq h0 hcount hraise'⟩

/-- Witness for C9: on the empty registry, registering callback 7 for
signal 1 with `max_calls = 5` and then for signal 2 with `max_calls = 0`
leaves the shared counter at 0; and one registration of callback 7 for
signals 1 and 2 with `max_calls = 1` followed by one emit of each signal
produces exactly `min 2 1 = 1` real execution in total. -/
theorem max_calls_attribute_shared_witness :
    (onCore (onCore initState (.one 1) 7 (some 5)).1 (.one 2) 7 (some 0)).1.maxCalls
      7 = some 0 ∧
    (((iterEmits (onCore initState (.many [1, 2]) 7 (some 1)).1 [1, 2] (0 : Nat)
        (fun _ => none)).2.map (cCount 7)).sum) =
      min ([1, 2] : List Nat).length (1 : Int).toNat :=
  ⟨(max_calls_attribute_shared initState 1 2 7 (some 5) (some 0) 1 0
      (fun _ => none) [1, 2] (by decide)
      (fun t w' h => absurd h (List.not_mem_nil w')) (by decide)
      (fun t w' h => absurd h (List.not_mem_nil w')) rfl).1.2.1,
    (max_calls_attribute_shared initState 1 2 7 (some 5) (some 0) 1 0
      (fun _ => none) [1, 2] (by decide)
      (fun t w' h => absurd h (List.not_mem_nil w')) (by decide)
      (fun t w' h => absurd h (List.not_mem_nil w')) rfl).2.2.2⟩
